import Mathlib

/-!
Shallow embedding of the `nmoney` crate (src/money.rs and src/money/options.rs).

A `Money` value is the Rust struct `{ dollars: u64, cents: u8, sign, options }`;
`dollars` and `cents` are modelled as `Nat` with the u64/u8 range handled by
explicit wrap-around where the Rust code can wrap (the `as` casts and the
wrapping arithmetic of release builds).  All arithmetic on the total-cents
projection uses `Int` with explicit two's-complement wrapping where the Rust
code wraps, mirroring release-build semantics; places where a debug build
would panic instead are noted at the theorems concerned.
-/

namespace NMoney

/-- Sign of a monetary value (src/money.rs `MoneySign`). -/
inductive MoneySign where
  | Positive
  | Negative
  deriving DecidableEq, Repr

/-- How a negative amount is rendered (src/money/options.rs `NegativeView`). -/
inductive NegativeView where
  | Minus
  | Paren
  | Hide
  deriving DecidableEq, Repr

/-- Display options carried by every value (src/money/options.rs `Options`). -/
structure Options where
  symbol : Char
  show_symbol : Bool
  negative_view : NegativeView
  deriving DecidableEq, Repr

/-- `Options::new()`: symbol `'$'`, show_symbol `true`, negative view `Minus`. -/
def Options.new : Options :=
  { symbol := '$', show_symbol := true, negative_view := NegativeView.Minus }

/-- `Options::set_symbol`: rejects ASCII digits (no-op), otherwise stores the char. -/
def Options.set_symbol (o : Options) (c : Char) : Options :=
  if c.isDigit then o else { o with symbol := c }

/-- `Options::set_show_symbol`. -/
def Options.set_show_symbol (o : Options) (b : Bool) : Options :=
  { o with show_symbol := b }

/-- `Options::set_negative_view`. -/
def Options.set_negative_view (o : Options) (v : NegativeView) : Options :=
  { o with negative_view := v }

/-- The Rust struct `Money` (src/money.rs). `dollars` is a u64, `cents` a u8. -/
structure Money where
  dollars : Nat
  cents : Nat
  sign : MoneySign
  options : Options
  deriving DecidableEq, Repr

/-- `Money::new`: normalizes a zero magnitude to Positive, rejects `cents >= 100`. -/
def Money.new (dollars cents : Nat) (sign : MoneySign) : Option Money :=
  let sign' := if dollars = 0 ∧ cents = 0 then MoneySign.Positive else sign
  if cents < 100 then
    some { dollars := dollars, cents := cents, sign := sign', options := Options.new }
  else
    none

/-- `PartialEq for Money`: structural equality of the (dollars, cents, sign)
triple; options are ignored. -/
def money_eq (a b : Money) : Prop :=
  a.dollars = b.dollars ∧ a.cents = b.cents ∧ a.sign = b.sign

instance (a b : Money) : Decidable (money_eq a b) := by
  unfold money_eq; infer_instance

/-- Shorthand: a value with default options, as a successful `Money::new`
builds it. -/
def mkMoney (d c : Nat) (s : MoneySign) : Money :=
  { dollars := d, cents := c, sign := s, options := Options.new }

/-! ### Machine-integer helpers

Rust's `u64 -> i64` and `i64 -> u64/u8` casts and the wrapping `*= -1`
of release builds, made explicit over `Nat`/`Int`. -/

/-- i64::MIN. -/
def i64Min : Int := -(2 ^ 63)

/-- i64::MAX. -/
def i64Max : Int := 2 ^ 63 - 1

/-- Reinterpret a u64 bit pattern as an i64 (the Rust `as i64` cast). -/
def toI64 (n : Nat) : Int :=
  if n < 2 ^ 63 then (n : Int) else (n : Int) - 2 ^ 64

/-- Two's-complement wrap of an integer into the i64 range (Rust release-build
wrapping arithmetic). -/
def i64_wrap (x : Int) : Int :=
  (x + 2 ^ 63).emod (2 ^ 64) - 2 ^ 63

/-- The Rust `as u64` cast of an i64 value. -/
def u64_cast (x : Int) : Nat :=
  (x.emod (2 ^ 64)).toNat

/-- The Rust `as u8` cast of an i64 value. -/
def u8_cast (x : Int) : Nat :=
  (x.emod (2 ^ 8)).toNat

/-- Rust `/` on signed integers: truncation toward zero. -/
def rust_div (a b : Int) : Int :=
  Int.sign a * Int.sign b * ((a.natAbs / b.natAbs : Nat) : Int)

/-- Rust `%` on signed integers: remainder with the sign of the dividend. -/
def rust_mod (a b : Int) : Int :=
  Int.sign a * ((a.natAbs % b.natAbs : Nat) : Int)

/-! ### Total-cents conversions (src/money.rs) -/

/-- `convert_money_to_whole`: `(dollars * 100) as i64` (u64 multiply, wrapping
in release builds, then bit-cast), `checked_add` of the cents, then `sum *= -1`
when the sign is Negative (wrapping negation in release builds).
`none` is the `Err(MoneyErrorOverflow)` of the `checked_add`. -/
def convert_money_to_whole (m : Money) : Option Int :=
  let dollars : Int := toI64 ((m.dollars * 100) % 2 ^ 64)
  let cents : Int := (m.cents : Int)
  if i64Min ≤ dollars + cents ∧ dollars + cents ≤ i64Max then
    some (if m.sign = MoneySign.Negative then i64_wrap (-(dollars + cents)) else dollars + cents)
  else
    none

/-- `convert_whole_to_money`: flip a negative input (wrapping negation in
release builds), then `(whole / 100) as u64` and `(whole % 100) as u8`. -/
def convert_whole_to_money (whole : Int) : Money :=
  let w : Int := if whole < 0 then i64_wrap (-whole) else whole
  { dollars := u64_cast (rust_div w 100)
    cents := u8_cast (rust_mod w 100)
    sign := if whole < 0 then MoneySign.Negative else MoneySign.Positive
    options := Options.new }

/-- `Money::as_cents`. -/
def Money.as_cents (m : Money) : Option Int :=
  convert_money_to_whole m

/-- `Money::from_cents`. -/
def Money.from_cents (cents : Int) : Money :=
  convert_whole_to_money cents

/-- `impl Add for Money`: project both operands (`.expect` panics on `Err`),
`checked_add`, convert back; `none` models the panics. -/
def money_add (a b : Money) : Option Money :=
  match convert_money_to_whole a, convert_money_to_whole b with
  | some x, some y =>
      if i64Min ≤ x + y ∧ x + y ≤ i64Max then
        some (convert_whole_to_money (x + y))
      else
        none
  | _, _ => none

/-- `impl Sub for Money`: like addition with `checked_sub`. -/
def money_sub (a b : Money) : Option Money :=
  match convert_money_to_whole a, convert_money_to_whole b with
  | some x, some y =>
      if i64Min ≤ x - y ∧ x - y ≤ i64Max then
        some (convert_whole_to_money (x - y))
      else
        none
  | _, _ => none

/-- `impl Neg for Money`: flips the stored sign field, keeps every other
field (options included) unchanged. -/
def money_neg (m : Money) : Money :=
  { dollars := m.dollars
    cents := m.cents
    sign := if m.sign = MoneySign.Positive then MoneySign.Negative else MoneySign.Positive
    options := m.options }

/-- `impl PartialOrd for Money`: compares the `as_cents` projections;
the `unwrap` calls panic when a projection overflows (modelled as `none`). -/
def money_compare (a b : Money) : Option Ordering :=
  match convert_money_to_whole a, convert_money_to_whole b with
  | some x, some y =>
      some (if x < y then Ordering.lt else if x > y then Ordering.gt else Ordering.eq)
  | _, _ => none

/-- Rust `a < b`, derived from `partial_cmp` as in `PartialOrd`. -/
def money_lt (a b : Money) : Prop :=
  money_compare a b = some Ordering.lt

/-- The negative-zero invariant of the spec: a zero magnitude forces a
Positive sign. -/
def no_negative_zero (m : Money) : Prop :=
  m.dollars = 0 ∧ m.cents = 0 → m.sign = MoneySign.Positive

instance (m : Money) : Decidable (no_negative_zero m) := by
  unfold no_negative_zero; infer_instance

/-! ### Text codec (src/money.rs `Display` and `from_str`)

Strings are modelled as `List Char`. -/

/-- One decimal digit as a character. -/
def digitChar : Nat → Char
  | 0 => '0' | 1 => '1' | 2 => '2' | 3 => '3' | 4 => '4'
  | 5 => '5' | 6 => '6' | 7 => '7' | 8 => '8' | 9 => '9'
  | _ => '*'

/-- Little-endian decimal digits of `n`, with explicit fuel. -/
def natDigitsAux : Nat → Nat → List Nat
  | 0, _ => []
  | _ + 1, 0 => []
  | fuel + 1, n + 1 => (n + 1) % 10 :: natDigitsAux fuel ((n + 1) / 10)

/-- Little-endian decimal digits of `n` (`[]` for 0). -/
def natDigits (n : Nat) : List Nat :=
  natDigitsAux n n

/-- Standard decimal rendering of an unsigned integer (what Rust's `{}`
formatting of a `u64` produces). -/
def natRepr (n : Nat) : List Char :=
  if n = 0 then ['0'] else ((natDigits n).map digitChar).reverse

/-- Rendering of the cents with Rust's `{:02}`: minimum width two,
zero-filled. -/
def fmt_cents (c : Nat) : List Char :=
  if c < 10 then '0' :: natRepr c else natRepr c

/-- `impl fmt::Display for Money`: `"{dollars}.{cents:02}"`, symbol prepended
when `show_symbol`, then the negative decoration per `negative_view`. -/
def money_fmt (m : Money) : List Char :=
  let s := natRepr m.dollars ++ '.' :: fmt_cents m.cents
  let s := if m.options.show_symbol then m.options.symbol :: s else s
  if m.sign = MoneySign.Negative then
    match m.options.negative_view with
    | NegativeView.Minus => '-' :: s
    | NegativeView.Paren => '(' :: (s ++ [')'])
    | NegativeView.Hide => s
  else
    s

/-- Rust's `str::split('.')` (never returns an empty list of pieces). -/
def splitDot : List Char → List (List Char)
  | [] => [[]]
  | c :: rest =>
      if c = '.' then
        [] :: splitDot rest
      else
        match splitDot rest with
        | [] => [[c]]
        | g :: gs => (c :: g) :: gs

/-- The digit-accumulation step of Rust's integer parsing. -/
def accDigit (a : Nat) (c : Char) : Nat :=
  a * 10 + (c.toNat - 48)

/-- Strip the optional leading `'+'` accepted by Rust's integer parsing. -/
def strip_plus (s : List Char) : List Char :=
  match s with
  | c :: rest => if c = '+' then rest else s
  | [] => s

/-- Rust `str::parse::<u64>()`: optional leading `'+'`, then one or more ASCII
digits, value below `2^64`; anything else is an error. -/
def parse_u64 (s : List Char) : Option Nat :=
  let t := strip_plus s
  if t = [] then none
  else if t.all (fun c => c.isDigit) then
    let n := t.foldl accDigit 0
    if n < 2 ^ 64 then some n else none
  else none

/-- Rust `str::parse::<u8>()`: like `parse_u64` with bound `2^8`. -/
def parse_u8 (s : List Char) : Option Nat :=
  let t := strip_plus s
  if t = [] then none
  else if t.all (fun c => c.isDigit) then
    let n := t.foldl accDigit 0
    if n < 2 ^ 8 then some n else none
  else none

/-- Outcome of `Money::from_str`: `Ok`, `Err(MoneyErrorString)`, or a panic
(the code calls `String::remove(0)`, which aborts on an empty string, and
`unwrap`). -/
inductive PResult where
  | ok (m : Money)
  | err
  | panic
  deriving DecidableEq, Repr

/-- The sign-detection step of `Money::from_str`: a leading `-`, or a leading
`(` that must pair with a trailing `)` (`none` is the early `Err`); returns
the sign, the paren-mode flag and the stripped remainder. -/
def sign_detect (s : List Char) : Option (MoneySign × Bool × List Char) :=
  match s with
  | [] => some (MoneySign.Positive, false, [])
  | c :: rest =>
      if c = '-' then
        some (MoneySign.Negative, false, rest)
      else if c = '(' then
        if s.getLast? = some ')' then
          some (MoneySign.Negative, true, rest.dropLast)
        else
          none
      else
        some (MoneySign.Positive, false, s)

/-- The option updates at the end of `Money::from_str`: set Paren view when
paren-mode was detected, then either store the captured symbol or hide the
(default) symbol. -/
def finish_parse (m0 : Money) (is_paren : Bool) (symbol : Option Char) : Money :=
  let m1 := if is_paren then
      { m0 with options := m0.options.set_negative_view NegativeView.Paren }
    else m0
  match symbol with
  | some sym => { m1 with options := m1.options.set_symbol sym }
  | none => { m1 with options := m1.options.set_show_symbol false }

/-- The tail of `Money::from_str` once the sign has been detected and
stripped: symbol detection on the next character (`String::remove(0)`, which
panics on an empty string), split on `'.'` into exactly two pieces, numeric
parses, the `cents >= 100` check, construction via `Money::new(..).unwrap()`,
then the option updates. -/
def parse_body (sign : MoneySign) (is_paren : Bool) (r : List Char) : PResult :=
  match r with
  | [] => PResult.panic
  | leading :: rest =>
    let symbol : Option Char := if leading.isDigit then none else some leading
    let r2 : List Char := if leading.isDigit then leading :: rest else rest
    match splitDot r2 with
    | [ds, cs] =>
        match parse_u64 ds, parse_u8 cs with
        | some d, some c =>
            if c ≥ 100 then PResult.err
            else
              match Money.new d c sign with
              | none => PResult.panic
              | some m0 => PResult.ok (finish_parse m0 is_paren symbol)
        | _, _ => PResult.err
    | _ => PResult.err

lemma finish_parse_triple (m0 : Money) (p : Bool) (sym : Option Char) :
    (finish_parse m0 p sym).dollars = m0.dollars ∧
    (finish_parse m0 p sym).cents = m0.cents ∧
    (finish_parse m0 p sym).sign = m0.sign := by
  unfold finish_parse
  cases sym <;> cases p <;> simp

/-- `Money::from_str`: sign detection (`-`, or `(`...`)` with the early `Err`
on an unmatched `(`), then the body above. -/
def from_str (s : List Char) : PResult :=
  match sign_detect s with
  | none => PResult.err
  | some (sign, is_paren, r) => parse_body sign is_paren r

/-! ### Helper lemmas: machine-integer casts -/

lemma i64_wrap_eq_self {x : Int} (h1 : i64Min ≤ x) (h2 : x ≤ i64Max) :
    i64_wrap x = x := by
  unfold i64_wrap
  unfold i64Min at h1
  unfold i64Max at h2
  have h3 : (x + 2 ^ 63).emod (2 ^ 64) = x + 2 ^ 63 := by
    apply Int.emod_eq_of_lt <;> omega
  omega

lemma rust_div_coe (n : Nat) : rust_div (n : Int) 100 = ((n / 100 : Nat) : Int) := by
  cases n with
  | zero => rfl
  | succ k =>
      unfold rust_div
      have hs : Int.sign ((k + 1 : Nat) : Int) = 1 := rfl
      have hs100 : Int.sign (100 : Int) = 1 := rfl
      have ha : ((k + 1 : Nat) : Int).natAbs = k + 1 := rfl
      have ha100 : (100 : Int).natAbs = 100 := rfl
      rw [hs, hs100, ha, ha100, one_mul, one_mul]

lemma rust_mod_coe (n : Nat) : rust_mod (n : Int) 100 = ((n % 100 : Nat) : Int) := by
  cases n with
  | zero => rfl
  | succ k =>
      unfold rust_mod
      have hs : Int.sign ((k + 1 : Nat) : Int) = 1 := rfl
      have ha : ((k + 1 : Nat) : Int).natAbs = k + 1 := rfl
      have ha100 : (100 : Int).natAbs = 100 := rfl
      rw [hs, ha, ha100, one_mul]

lemma u64_cast_coe (n : Nat) (h : n < 2 ^ 64) : u64_cast (n : Int) = n := by
  unfold u64_cast
  have h1 : ((n : Int)).emod (2 ^ 64) = (n : Int) := by
    apply Int.emod_eq_of_lt
    · exact Int.ofNat_nonneg n
    · exact_mod_cast h
  rw [h1, Int.toNat_natCast]

lemma u8_cast_coe (n : Nat) (h : n < 2 ^ 8) : u8_cast (n : Int) = n := by
  unfold u8_cast
  have h1 : ((n : Int)).emod (2 ^ 8) = (n : Int) := by
    apply Int.emod_eq_of_lt
    · exact Int.ofNat_nonneg n
    · exact_mod_cast h
  rw [h1, Int.toNat_natCast]

/-- `convert_whole_to_money` on a nonnegative in-range input. -/
lemma convert_whole_to_money_coe (n : Nat) (h : n < 2 ^ 63) :
    convert_whole_to_money (n : Int) =
      { dollars := n / 100, cents := n % 100,
        sign := MoneySign.Positive, options := Options.new } := by
  have hn : ¬ ((n : Int) < 0) := by omega
  simp only [convert_whole_to_money, if_neg hn]
  rw [rust_div_coe, rust_mod_coe,
    u64_cast_coe _ (by have := Nat.div_le_self n 100; omega),
    u8_cast_coe _ (by have := Nat.mod_lt n (y := 100) (by omega); omega)]

/-- `convert_whole_to_money` on a negative input above `i64::MIN`. -/
lemma convert_whole_to_money_neg_coe (n : Nat) (h1 : 1 ≤ n) (h2 : n < 2 ^ 63) :
    convert_whole_to_money (-(n : Int)) =
      { dollars := n / 100, cents := n % 100,
        sign := MoneySign.Negative, options := Options.new } := by
  have hn : (-(n : Int) < 0) := by omega
  have hw : i64_wrap (-(-(n : Int))) = (n : Int) := by
    rw [neg_neg]
    apply i64_wrap_eq_self
    · unfold i64Min; omega
    · unfold i64Max; omega
  simp only [convert_whole_to_money, if_pos hn, hw]
  rw [rust_div_coe, rust_mod_coe,
    u64_cast_coe _ (by have := Nat.div_le_self n 100; omega),
    u8_cast_coe _ (by have := Nat.mod_lt n (y := 100) (by omega); omega)]

/-- `convert_money_to_whole` on a positive value in the safe range. -/
lemma convert_money_to_whole_pos (m : Money) (hs : m.sign = MoneySign.Positive)
    (hr : m.dollars * 100 + m.cents ≤ 2 ^ 63 - 1) :
    convert_money_to_whole m = some ((m.dollars * 100 + m.cents : Nat) : Int) := by
  have h2 : (m.dollars * 100) % 2 ^ 64 = m.dollars * 100 := Nat.mod_eq_of_lt (by omega)
  have h3 : toI64 (m.dollars * 100) = ((m.dollars * 100 : Nat) : Int) := by
    unfold toI64
    rw [if_pos (by exact_mod_cast (by omega : (m.dollars * 100 : Nat) < 2 ^ 63))]
  unfold convert_money_to_whole
  rw [h2, h3]
  have hcond : i64Min ≤ ((m.dollars * 100 : Nat) : Int) + (m.cents : Int) ∧
      ((m.dollars * 100 : Nat) : Int) + (m.cents : Int) ≤ i64Max := by
    unfold i64Min i64Max
    constructor <;> [omega; (push_cast; omega)]
  rw [if_pos hcond, hs]
  simp only [reduceCtorEq, if_false]
  norm_cast

/-- `convert_money_to_whole` on a negative value in the safe range. -/
lemma convert_money_to_whole_neg (m : Money) (hs : m.sign = MoneySign.Negative)
    (hr : m.dollars * 100 + m.cents ≤ 2 ^ 63 - 1) :
    convert_money_to_whole m = some (-((m.dollars * 100 + m.cents : Nat) : Int)) := by
  have h2 : (m.dollars * 100) % 2 ^ 64 = m.dollars * 100 := Nat.mod_eq_of_lt (by omega)
  have h3 : toI64 (m.dollars * 100) = ((m.dollars * 100 : Nat) : Int) := by
    unfold toI64
    rw [if_pos (by exact_mod_cast (by omega : (m.dollars * 100 : Nat) < 2 ^ 63))]
  unfold convert_money_to_whole
  rw [h2, h3]
  have hcond : i64Min ≤ ((m.dollars * 100 : Nat) : Int) + (m.cents : Int) ∧
      ((m.dollars * 100 : Nat) : Int) + (m.cents : Int) ≤ i64Max := by
    unfold i64Min i64Max
    constructor <;> [omega; (push_cast; omega)]
  rw [if_pos hcond, hs]
  simp only [if_true]
  have hw : i64_wrap (-(((m.dollars * 100 : Nat) : Int) + (m.cents : Int))) =
      -(((m.dollars * 100 : Nat) : Int) + (m.cents : Int)) := by
    apply i64_wrap_eq_self
    · unfold i64Min; push_cast; omega
    · unfold i64Max; omega
  rw [hw]
  norm_cast

/-- Every `from_cents` image of an i64 input satisfies the negative-zero
invariant. -/
lemma no_negative_zero_from_cents (w : Int) (h1 : i64Min ≤ w) (h2 : w ≤ i64Max) :
    no_negative_zero (convert_whole_to_money w) := by
  by_cases hw : w < 0
  · by_cases hmin : w = i64Min
    · subst hmin
      decide
    · have hn1 : 1 ≤ (-w).toNat := by omega
      have hn2 : (-w).toNat < 2 ^ 63 := by
        unfold i64Min at h1 hmin
        omega
      have hrw : w = -(((-w).toNat : Nat) : Int) := by omega
      rw [hrw, convert_whole_to_money_neg_coe _ hn1 hn2]
      intro hzero
      have := Nat.div_add_mod (-w).toNat 100
      simp only at hzero
      omega
  · have hrw : w = ((w.toNat : Nat) : Int) := by omega
    have hn2 : w.toNat < 2 ^ 63 := by
      unfold i64Max at h2
      omega
    rw [hrw, convert_whole_to_money_coe _ hn2]
    intro _
    rfl

/-- `Money::new` always yields a value satisfying the negative-zero invariant. -/
lemma new_normalized {d c : Nat} {s : MoneySign} {m : Money}
    (h : Money.new d c s = some m) : no_negative_zero m := by
  unfold Money.new at h
  split at h
  case isTrue hz =>
    simp only at h
    split at h
    · injection h with h
      subst h
      intro _
      rfl
    · cases h
  case isFalse hz =>
    simp only at h
    split at h
    · injection h with h
      subst h
      intro hzero
      simp only at hzero
      exact absurd hzero hz
    · cases h

/-! ### Helper lemmas: decimal rendering and parsing -/

lemma isDigit_ne_special {c : Char} (h : c.isDigit = true) :
    c ≠ '+' ∧ c ≠ '-' ∧ c ≠ '(' ∧ c ≠ '.' := by
  refine ⟨?_, ?_, ?_, ?_⟩ <;> (intro hc; subst hc; exact absurd h (by decide))

lemma natDigitsAux_lt (fuel : Nat) : ∀ n, ∀ d ∈ natDigitsAux fuel n, d < 10 := by
  induction fuel with
  | zero => intro n d hd; simp [natDigitsAux] at hd
  | succ fuel ih =>
      intro n d hd
      cases n with
      | zero => simp [natDigitsAux] at hd
      | succ k =>
          simp only [natDigitsAux, List.mem_cons] at hd
          rcases hd with h | h
          · subst h; exact Nat.mod_lt _ (by omega)
          · exact ih _ d h

lemma natDigitsAux_val (fuel : Nat) : ∀ n, n ≤ fuel →
    (natDigitsAux fuel n).reverse.foldl (fun a d => a * 10 + d) 0 = n := by
  induction fuel with
  | zero =>
      intro n h
      interval_cases n
      rfl
  | succ fuel ih =>
      intro n h
      cases n with
      | zero => rfl
      | succ k =>
          have hdiv : (k + 1) / 10 ≤ fuel := by omega
          simp only [natDigitsAux, List.reverse_cons]
          rw [List.foldl_append, ih _ hdiv]
          simp only [List.foldl_cons, List.foldl_nil]
          omega

lemma natDigits_lt (n : Nat) : ∀ d ∈ natDigits n, d < 10 :=
  natDigitsAux_lt n n

lemma natDigits_val (n : Nat) :
    (natDigits n).reverse.foldl (fun a d => a * 10 + d) 0 = n :=
  natDigitsAux_val n n le_rfl

lemma digitChar_isDigit {d : Nat} (h : d < 10) : (digitChar d).isDigit = true := by
  interval_cases d <;> decide

lemma digitChar_toNat {d : Nat} (h : d < 10) : (digitChar d).toNat - 48 = d := by
  interval_cases d <;> decide

lemma foldl_accDigit_map (l : List Nat) (h : ∀ d ∈ l, d < 10) :
    ∀ a : Nat, (l.map digitChar).foldl accDigit a = l.foldl (fun a d => a * 10 + d) a := by
  induction l with
  | nil => intro a; rfl
  | cons d rest ih =>
      intro a
      simp only [List.map_cons, List.foldl_cons]
      have hstep : accDigit a (digitChar d) = a * 10 + d := by
        unfold accDigit
        rw [digitChar_toNat (h d (List.mem_cons_self d rest))]
      rw [hstep]
      exact ih (fun x hx => h x (List.mem_cons_of_mem _ hx)) _

lemma natRepr_all_digits (n : Nat) : ∀ c ∈ natRepr n, c.isDigit = true := by
  unfold natRepr
  split
  · intro c hc
    simp only [List.mem_singleton] at hc
    subst hc
    decide
  · intro c hc
    rw [List.mem_reverse] at hc
    obtain ⟨d, hd, rfl⟩ := List.mem_map.mp hc
    exact digitChar_isDigit (natDigits_lt n d hd)

lemma natRepr_val (n : Nat) : (natRepr n).foldl accDigit 0 = n := by
  unfold natRepr
  split
  · next hn => rw [hn]; rfl
  · rw [← List.map_reverse,
      foldl_accDigit_map _ (fun d hd => natDigits_lt n d (List.mem_reverse.mp hd)),
      natDigits_val]

lemma natRepr_ne_nil (n : Nat) : natRepr n ≠ [] := by
  unfold natRepr
  split
  · simp
  · next hn =>
    cases n with
    | zero => exact absurd rfl hn
    | succ k => simp [natDigits, natDigitsAux]

lemma natRepr_head (n : Nat) : ∃ ch t, natRepr n = ch :: t ∧ ch.isDigit = true := by
  rcases hrep : natRepr n with _ | ⟨ch, t⟩
  · exact absurd hrep (natRepr_ne_nil n)
  · exact ⟨ch, t, rfl, natRepr_all_digits n ch (hrep ▸ List.mem_cons_self ch t)⟩

lemma fmt_cents_all_digits (c : Nat) : ∀ ch ∈ fmt_cents c, ch.isDigit = true := by
  unfold fmt_cents
  split
  · intro ch hch
    rcases List.mem_cons.mp hch with h | h
    · subst h; decide
    · exact natRepr_all_digits c ch h
  · exact natRepr_all_digits c

lemma no_dot_of_all_digits {l : List Char} (h : ∀ ch ∈ l, ch.isDigit = true) :
    '.' ∉ l := by
  intro hmem
  exact absurd (h _ hmem) (by decide)

lemma strip_plus_of_digit {ch : Char} {t : List Char} (h : ch.isDigit = true) :
    strip_plus (ch :: t) = ch :: t := by
  simp only [strip_plus]
  rw [if_neg (isDigit_ne_special h).1]

lemma parse_u64_natRepr {n : Nat} (h : n < 2 ^ 64) : parse_u64 (natRepr n) = some n := by
  obtain ⟨ch, t, hrep, hdig⟩ := natRepr_head n
  have h1 : strip_plus (natRepr n) = natRepr n := by
    rw [hrep]
    exact strip_plus_of_digit hdig
  have h2 : ¬ (natRepr n = []) := natRepr_ne_nil n
  have h3 : (natRepr n).all (fun c => c.isDigit) = true :=
    List.all_eq_true.mpr (natRepr_all_digits n)
  unfold parse_u64
  simp only [h1, if_neg h2, h3, if_true, natRepr_val, if_pos h]

lemma parse_u8_fmt_cents {c : Nat} (h : c < 100) : parse_u8 (fmt_cents c) = some c := by
  have hval : (fmt_cents c).foldl accDigit 0 = c := by
    unfold fmt_cents
    split
    · rw [List.foldl_cons]
      have h0 : accDigit 0 '0' = 0 := rfl
      rw [h0, natRepr_val]
    · exact natRepr_val c
  have hnil : ¬ (fmt_cents c = []) := by
    unfold fmt_cents
    split
    · simp
    · exact natRepr_ne_nil c
  have hall : (fmt_cents c).all (fun c => c.isDigit) = true :=
    List.all_eq_true.mpr (fmt_cents_all_digits c)
  have hhead : ∃ ch t, fmt_cents c = ch :: t ∧ ch.isDigit = true := by
    rcases hrep : fmt_cents c with _ | ⟨ch, t⟩
    · exact absurd hrep hnil
    · exact ⟨ch, t, rfl, fmt_cents_all_digits c ch (hrep ▸ List.mem_cons_self ch t)⟩
  obtain ⟨ch, t, hrep, hdig⟩ := hhead
  have h1 : strip_plus (fmt_cents c) = fmt_cents c := by
    rw [hrep]
    exact strip_plus_of_digit hdig
  unfold parse_u8
  simp only [h1, if_neg hnil, hall, if_true, hval, if_pos (by omega : c < 2 ^ 8)]

lemma splitDot_no_dot (l : List Char) (h : '.' ∉ l) : splitDot l = [l] := by
  induction l with
  | nil => rfl
  | cons c rest ih =>
      have hc : ¬ (c = '.') := fun hc => h (hc ▸ List.mem_cons_self c rest)
      have hrest : '.' ∉ rest := fun hm => h (List.mem_cons_of_mem _ hm)
      simp only [splitDot, if_neg hc, ih hrest]

lemma splitDot_append (xs ys : List Char) (h : '.' ∉ xs) :
    splitDot (xs ++ '.' :: ys) = xs :: splitDot ys := by
  induction xs with
  | nil => simp [splitDot]
  | cons c rest ih =>
      have hc : ¬ (c = '.') := fun hc => h (hc ▸ List.mem_cons_self c rest)
      have hrest : '.' ∉ rest := fun hm => h (List.mem_cons_of_mem _ hm)
      simp only [List.cons_append, splitDot, if_neg hc]
      rw [List.append_eq, ih hrest]

/-- The body of `from_str`, applied to a rendered amount with an optional
leading non-digit symbol, succeeds and recovers the numeric triple. -/
lemma parse_body_fmt (sg : MoneySign) (p : Bool) (d c : Nat) (sym : Option Char)
    (hd : d < 2 ^ 64) (hc : c < 100)
    (hsym : ∀ ch, sym = some ch → ch.isDigit = false) :
    ∃ m', parse_body sg p (sym.toList ++ (natRepr d ++ '.' :: fmt_cents c)) = PResult.ok m' ∧
      m'.dollars = d ∧ m'.cents = c ∧
      m'.sign = (if d = 0 ∧ c = 0 then MoneySign.Positive else sg) := by
  have hsplit : splitDot (natRepr d ++ '.' :: fmt_cents c) = [natRepr d, fmt_cents c] := by
    rw [splitDot_append _ _ (no_dot_of_all_digits (natRepr_all_digits d)),
      splitDot_no_dot _ (no_dot_of_all_digits (fmt_cents_all_digits c))]
  have hnew : Money.new d c sg =
      some ⟨d, c, if d = 0 ∧ c = 0 then MoneySign.Positive else sg, Options.new⟩ := by
    unfold Money.new
    simp only [if_pos hc]
  obtain ⟨ch, t, hrep, hdig⟩ := natRepr_head d
  cases sym with
  | none =>
      simp only [Option.toList, List.nil_append]
      rw [hrep, List.cons_append]
      simp only [parse_body, hdig, if_true, ← List.cons_append, ← hrep, hsplit,
        parse_u64_natRepr hd, parse_u8_fmt_cents hc, if_neg (by omega : ¬ c ≥ 100), hnew]
      exact ⟨_, rfl, finish_parse_triple _ p none⟩
  | some s =>
      have hsdig : s.isDigit = false := hsym s rfl
      simp only [Option.toList, List.cons_append, List.nil_append]
      simp only [parse_body, hsdig, Bool.false_eq_true, if_false, hsplit,
        parse_u64_natRepr hd, parse_u8_fmt_cents hc, if_neg (by omega : ¬ c ≥ 100), hnew]
      exact ⟨_, rfl, finish_parse_triple _ p (some s)⟩

/-- The sign-free part of the rendered string: optional symbol, dollars,
dot, two-digit cents. -/
def fmt_core (m : Money) : List Char :=
  (if m.options.show_symbol then [m.options.symbol] else []) ++
    (natRepr m.dollars ++ '.' :: fmt_cents m.cents)

lemma money_fmt_pos (m : Money) (h : m.sign = MoneySign.Positive) :
    money_fmt m = fmt_core m := by
  unfold money_fmt fmt_core
  rw [h]
  simp only [reduceCtorEq, if_false]
  cases m.options.show_symbol <;> simp

lemma money_fmt_neg_minus (m : Money) (h : m.sign = MoneySign.Negative)
    (hv : m.options.negative_view = NegativeView.Minus) :
    money_fmt m = '-' :: fmt_core m := by
  unfold money_fmt fmt_core
  rw [h, hv]
  simp only [if_true]
  cases m.options.show_symbol <;> simp

lemma money_fmt_neg_paren (m : Money) (h : m.sign = MoneySign.Negative)
    (hv : m.options.negative_view = NegativeView.Paren) :
    money_fmt m = '(' :: (fmt_core m ++ [')']) := by
  unfold money_fmt fmt_core
  rw [h, hv]
  simp only [if_true]
  cases m.options.show_symbol <;> simp

lemma money_fmt_neg_hide (m : Money) (h : m.sign = MoneySign.Negative)
    (hv : m.options.negative_view = NegativeView.Hide) :
    money_fmt m = fmt_core m := by
  unfold money_fmt fmt_core
  rw [h, hv]
  simp only [if_true]
  cases m.options.show_symbol <;> simp

lemma sign_detect_cons (c : Char) (rest : List Char) :
    sign_detect (c :: rest) =
      if c = '-' then some (MoneySign.Negative, false, rest)
      else if c = '(' then
        (if (c :: rest).getLast? = some ')' then
          some (MoneySign.Negative, true, rest.dropLast)
        else none)
      else some (MoneySign.Positive, false, c :: rest) := rfl

lemma sign_detect_default {c : Char} (rest : List Char) (h1 : c ≠ '-') (h2 : c ≠ '(') :
    sign_detect (c :: rest) = some (MoneySign.Positive, false, c :: rest) := by
  rw [sign_detect_cons, if_neg h1, if_neg h2]

lemma sign_detect_minus (rest : List Char) :
    sign_detect ('-' :: rest) = some (MoneySign.Negative, false, rest) := rfl

lemma sign_detect_paren (l : List Char) :
    sign_detect ('(' :: (l ++ [')'])) = some (MoneySign.Negative, true, l) := by
  have hlast : ('(' :: (l ++ [')'])).getLast? = some ')' := by
    rw [← List.cons_append, List.getLast?_concat]
  rw [sign_detect_cons, if_neg (by decide : ¬ ('(' : Char) = '-'),
    if_pos (rfl : ('(' : Char) = '('), hlast, if_pos rfl, List.dropLast_concat]

/-- `parse_body` on the sign-free rendering of a value recovers the triple. -/
lemma parse_body_fmt_core (m : Money) (sgn : MoneySign) (p : Bool)
    (hd : m.dollars < 2 ^ 64) (hc : m.cents < 100)
    (hsym : m.options.symbol.isDigit = false) :
    ∃ m', parse_body sgn p (fmt_core m) = PResult.ok m' ∧
      m'.dollars = m.dollars ∧ m'.cents = m.cents ∧
      m'.sign = (if m.dollars = 0 ∧ m.cents = 0 then MoneySign.Positive else sgn) := by
  cases hshow : m.options.show_symbol with
  | true =>
      have hfc : fmt_core m = (some m.options.symbol).toList ++
          (natRepr m.dollars ++ '.' :: fmt_cents m.cents) := by
        unfold fmt_core
        rw [hshow]
        rfl
      rw [hfc]
      refine parse_body_fmt sgn p m.dollars m.cents _ hd hc ?_
      intro ch hch
      injection hch with hch
      subst hch
      exact hsym
  | false =>
      have hfc : fmt_core m = (none : Option Char).toList ++
          (natRepr m.dollars ++ '.' :: fmt_cents m.cents) := by
        unfold fmt_core
        rw [hshow]
        rfl
      rw [hfc]
      refine parse_body_fmt sgn p m.dollars m.cents none hd hc ?_
      intro ch hch
      cases hch

/-- Every successful parse yields a value satisfying the negative-zero
invariant: the result is built by `Money::new`, and the later option updates
leave the numeric triple untouched. -/
lemma parse_body_ok_normalized {sg : MoneySign} {p : Bool} {r : List Char} {m : Money}
    (h : parse_body sg p r = PResult.ok m) : no_negative_zero m := by
  unfold parse_body at h
  split at h
  · cases h
  · simp only at h
    repeat split at h
    all_goals try cases h
    rename_i d c h64 h8 hge
    rcases hnew : Money.new d c sg with _ | m0
    · rw [hnew] at h
      cases h
    · rw [hnew] at h
      injection h with h
      subst h
      intro hz
      obtain ⟨h1, h2, h3⟩ := finish_parse_triple m0 p _
      rw [h1, h2] at hz
      rw [h3]
      exact new_normalized hnew hz

lemma from_str_ok_normalized {s : List Char} {m : Money}
    (h : from_str s = PResult.ok m) : no_negative_zero m := by
  unfold from_str at h
  split at h
  · cases h
  · exact parse_body_ok_normalized h

/-! ### Claim theorems -/

/-- C1, counterexample: the claim includes unary negation among the
operations preserving the no-negative-zero invariant, but negating the
(constructible) zero value yields sign Negative with zero magnitude. -/
theorem C1_counterexample :
    Money.new 0 0 MoneySign.Positive = some (mkMoney 0 0 MoneySign.Positive) ∧
    (money_neg (mkMoney 0 0 MoneySign.Positive)).sign = MoneySign.Negative ∧
    ¬ no_negative_zero (money_neg (mkMoney 0 0 MoneySign.Positive)) := by
  decide

/-- C1, amended: `new` (in particular `new(0,0,Negative)`), `from_cents` on
i64 inputs, addition, subtraction and parsing all yield values satisfying the
no-negative-zero invariant; unary negation preserves it only for operands of
nonzero magnitude. -/
theorem C1_theorem :
    (∀ d c : Nat, ∀ s : MoneySign, ∀ m : Money,
      Money.new d c s = some m → no_negative_zero m) ∧
    (∀ m : Money, Money.new 0 0 MoneySign.Negative = some m → m.sign = MoneySign.Positive) ∧
    (∀ w : Int, i64Min ≤ w → w ≤ i64Max → no_negative_zero (Money.from_cents w)) ∧
    (∀ a b m : Money, money_add a b = some m → no_negative_zero m) ∧
    (∀ a b m : Money, money_sub a b = some m → no_negative_zero m) ∧
    (∀ s : List Char, ∀ m : Money, from_str s = PResult.ok m → no_negative_zero m) ∧
    (∀ m : Money, ¬ (m.dollars = 0 ∧ m.cents = 0) → no_negative_zero (money_neg m)) := by
  refine ⟨?_, ?_, ?_, ?_, ?_, ?_, ?_⟩
  · intro d c s m h
    exact new_normalized h
  · intro m h
    have heval : Money.new 0 0 MoneySign.Negative =
        some (mkMoney 0 0 MoneySign.Positive) := by decide
    rw [heval] at h
    injection h with h
    subst h
    rfl
  · intro w h1 h2
    exact no_negative_zero_from_cents w h1 h2
  · intro a b m h
    unfold money_add at h
    split at h
    · split at h
      · injection h with h
        subst h
        rename_i hcond
        exact no_negative_zero_from_cents _ hcond.1 hcond.2
      · cases h
    · cases h
  · intro a b m h
    unfold money_sub at h
    split at h
    · split at h
      · injection h with h
        subst h
        rename_i hcond
        exact no_negative_zero_from_cents _ hcond.1 hcond.2
      · cases h
    · cases h
  · intro s m h
    exact from_str_ok_normalized h
  · intro m hnz hz
    exact absurd hz hnz

/-- C1, witness for the amended theorem at concrete inputs. -/
theorem C1_witness :
    no_negative_zero (Money.from_cents (-525)) ∧
    no_negative_zero (money_neg (mkMoney 1 0 MoneySign.Positive)) := by
  constructor
  · exact C1_theorem.2.2.1 (-525) (by decide) (by decide)
  · exact C1_theorem.2.2.2.2.2.2 _ (by decide)

/-- C2: addition and subtraction agree with `from_cents` of the sum or
difference of the `as_cents` projections whenever those fit in i64, and the
concrete table `4.56 + 12.49`, `4.56 + (-12.49)`, `(-4.56) + 12.49`,
`4.56 - 12.49` holds. -/
theorem C2_theorem :
    (∀ a b : Money, ∀ x y : Int, a.as_cents = some x → b.as_cents = some y →
      i64Min ≤ x + y → x + y ≤ i64Max →
      money_add a b = some (Money.from_cents (x + y))) ∧
    (∀ a b : Money, ∀ x y : Int, a.as_cents = some x → b.as_cents = some y →
      i64Min ≤ x - y → x - y ≤ i64Max →
      money_sub a b = some (Money.from_cents (x - y))) ∧
    money_add ⟨4, 56, MoneySign.Positive, Options.new⟩ ⟨12, 49, MoneySign.Positive, Options.new⟩ =
      some ⟨17, 5, MoneySign.Positive, Options.new⟩ ∧
    money_add ⟨4, 56, MoneySign.Positive, Options.new⟩ ⟨12, 49, MoneySign.Negative, Options.new⟩ =
      some ⟨7, 93, MoneySign.Negative, Options.new⟩ ∧
    money_add ⟨4, 56, MoneySign.Negative, Options.new⟩ ⟨12, 49, MoneySign.Positive, Options.new⟩ =
      some ⟨7, 93, MoneySign.Positive, Options.new⟩ ∧
    money_sub ⟨4, 56, MoneySign.Positive, Options.new⟩ ⟨12, 49, MoneySign.Positive, Options.new⟩ =
      some ⟨7, 93, MoneySign.Negative, Options.new⟩ := by
  refine ⟨?_, ?_, by decide, by decide, by decide, by decide⟩
  · intro a b x y hx hy h1 h2
    unfold Money.as_cents at hx hy
    unfold money_add Money.from_cents
    rw [hx, hy]
    show (if i64Min ≤ x + y ∧ x + y ≤ i64Max then some (convert_whole_to_money (x + y))
      else none) = some (convert_whole_to_money (x + y))
    rw [if_pos ⟨h1, h2⟩]
  · intro a b x y hx hy h1 h2
    unfold Money.as_cents at hx hy
    unfold money_sub Money.from_cents
    rw [hx, hy]
    show (if i64Min ≤ x - y ∧ x - y ≤ i64Max then some (convert_whole_to_money (x - y))
      else none) = some (convert_whole_to_money (x - y))
    rw [if_pos ⟨h1, h2⟩]

/-- C2, witness at a concrete pair of values. -/
theorem C2_witness :
    money_add ⟨1, 25, MoneySign.Positive, Options.new⟩ ⟨2, 50, MoneySign.Positive, Options.new⟩ =
      some (Money.from_cents (125 + 250)) :=
  C2_theorem.1 _ _ 125 250 (by decide) (by decide) (by decide) (by decide)

/-- C4 (code bug): for `dollars = 92233720368547759`, `dollars*100` exceeds
i64::MAX while fitting in a u64, so the `as i64` cast silently wraps and
`as_cents` returns `Ok` of a wrapped (wrong) value instead of the
`Err(OverflowError)` the claim requires. -/
theorem C4_theorem :
    i64Max < (92233720368547759 : Int) * 100 ∧
    (92233720368547759 : Nat) * 100 < 2 ^ 64 ∧
    (mkMoney 92233720368547759 0 MoneySign.Positive).as_cents =
      some (-9223372036854775716) ∧
    (-9223372036854775716 : Int) ≠ (92233720368547759 : Int) * 100 + 0 := by
  decide

/-- C5 (code bug): `from_cents` is not total as claimed: at i64::MIN the
`whole *= -1` negation overflows (panic in debug builds; wrap-around in
release builds, modelled here), yielding cents `248` and a wrapped dollars
value instead of `|c| / 100` and `|c| % 100`. -/
theorem C5_theorem :
    Money.from_cents (-9223372036854775808) =
      mkMoney 18354510353341003858 248 MoneySign.Negative ∧
    (248 : Nat) ≠ 9223372036854775808 % 100 ∧
    (18354510353341003858 : Nat) ≠ 9223372036854775808 / 100 ∧
    ¬ (248 : Nat) < 100 := by
  decide

/-- C7 (code bug): parsing does return `Err(StringError)` on the malformed
shapes the claim lists (unbalanced paren, wrong number of `.`-separated
pieces, non-numeric dollars or cents, cents >= 100), but it is not total: on
the inputs `""`, `"-"`, and `"()"` the code reaches `String::remove(0)` on an
empty string and panics instead of returning a `Result`. -/
theorem C7_theorem :
    from_str [] = PResult.panic ∧
    from_str ['-'] = PResult.panic ∧
    from_str ['(', ')'] = PResult.panic ∧
    from_str ['(', '5', '.', '3', '4'] = PResult.err ∧
    from_str ['5', '.', '3', '4', '.', '5'] = PResult.err ∧
    from_str ['5', '3', '4'] = PResult.err ∧
    from_str ['$', 'a', '.', '0', '0'] = PResult.err ∧
    from_str ['5', '.', 'x', 'x'] = PResult.err ∧
    from_str ['5', '.', '9', '9', '9'] = PResult.err ∧
    from_str ['5', '.', '1', '3', '4'] = PResult.err := by
  decide

/-- C10: the results of addition and subtraction carry fresh default options
(discarding both operands' options), while unary negation changes only the
sign field and keeps dollars, cents and the operand's options. -/
theorem C10_theorem :
    (∀ a b m : Money, money_add a b = some m → m.options = Options.new) ∧
    (∀ a b m : Money, money_sub a b = some m → m.options = Options.new) ∧
    (∀ a : Money, (money_neg a).dollars = a.dollars ∧ (money_neg a).cents = a.cents ∧
      (money_neg a).options = a.options ∧
      (money_neg a).sign =
        (if a.sign = MoneySign.Positive then MoneySign.Negative else MoneySign.Positive)) := by
  refine ⟨?_, ?_, ?_⟩
  · intro a b m h
    unfold money_add at h
    split at h
    · split at h
      · injection h with h
        subst h
        rfl
      · cases h
    · cases h
  · intro a b m h
    unfold money_sub at h
    split at h
    · split at h
      · injection h with h
        subst h
        rfl
      · cases h
    · cases h
  · intro a
    exact ⟨rfl, rfl, rfl, rfl⟩

/-- C10, witness: the options of a concrete sum are the defaults. -/
theorem C10_witness :
    ((⟨3, 5, MoneySign.Positive, Options.new⟩ : Money)).options = Options.new :=
  C10_theorem.1 ⟨1, 2, MoneySign.Positive, Options.new⟩ ⟨2, 3, MoneySign.Positive, Options.new⟩
    ⟨3, 5, MoneySign.Positive, Options.new⟩ (by decide)

/-- C3, counterexample: the claim quantifies over every constructible value
(any u64 dollars), but at `dollars = 92233720368547759` the projection wraps
(returning `Ok` of a wrong value) and `from_cents` of that result is a
different triple. -/
theorem C3_counterexample :
    (mkMoney 92233720368547759 0 MoneySign.Positive).as_cents =
      some (-9223372036854775716) ∧
    ¬ money_eq (Money.from_cents (-9223372036854775716))
      (mkMoney 92233720368547759 0 MoneySign.Positive) := by
  decide

/-- C3, amended: `from_cents (as_cents v) == v` (triple equality, options
ignored) for every constructible `v` whose total cents
`dollars*100 + cents` is at most i64::MAX. -/
theorem C3_theorem (m : Money) (hc : m.cents < 100) (hz : no_negative_zero m)
    (hr : m.dollars * 100 + m.cents ≤ 2 ^ 63 - 1) :
    ∃ v : Int, m.as_cents = some v ∧ money_eq (Money.from_cents v) m := by
  cases hs : m.sign with
  | Positive =>
      refine ⟨((m.dollars * 100 + m.cents : Nat) : Int),
        convert_money_to_whole_pos m hs hr, ?_⟩
      unfold Money.from_cents
      rw [convert_whole_to_money_coe _ (by omega)]
      refine ⟨?_, ?_, ?_⟩ <;> simp only
      · omega
      · omega
      · rw [hs]
  | Negative =>
      have hnz : ¬ (m.dollars = 0 ∧ m.cents = 0) := by
        intro hcon
        rw [hz hcon] at hs
        cases hs
      refine ⟨-((m.dollars * 100 + m.cents : Nat) : Int),
        convert_money_to_whole_neg m hs hr, ?_⟩
      unfold Money.from_cents
      rw [convert_whole_to_money_neg_coe _ (by omega) (by omega)]
      refine ⟨?_, ?_, ?_⟩ <;> simp only
      · omega
      · omega
      · rw [hs]

/-- C3, witness at a concrete value. -/
theorem C3_witness :
    ∃ v : Int, (mkMoney 5 76 MoneySign.Negative).as_cents = some v ∧
      money_eq (Money.from_cents v) (mkMoney 5 76 MoneySign.Negative) :=
  C3_theorem _ (by decide) (by decide) (by decide)

/-- C8: for values whose projections succeed, `a < b` iff
`as_cents a < as_cents b` and `partial_cmp` is defined; the strict order is
antisymmetric and transitive. -/
theorem C8_theorem :
    (∀ a b : Money, ∀ x y : Int, a.as_cents = some x → b.as_cents = some y →
      ((money_lt a b ↔ x < y) ∧ money_compare a b ≠ none)) ∧
    (∀ a b : Money, money_lt a b → money_lt b a → False) ∧
    (∀ a b c : Money, money_lt a b → money_lt b c → money_lt a c) := by
  have key : ∀ a b : Money, ∀ x y : Int,
      convert_money_to_whole a = some x → convert_money_to_whole b = some y →
      money_compare a b =
        some (if x < y then Ordering.lt else if x > y then Ordering.gt else Ordering.eq) := by
    intro a b x y hx hy
    unfold money_compare
    rw [hx, hy]
  have dest : ∀ a b : Money, money_lt a b →
      ∃ x y : Int, convert_money_to_whole a = some x ∧
        convert_money_to_whole b = some y ∧ x < y := by
    intro a b h
    unfold money_lt money_compare at h
    rcases hca : convert_money_to_whole a with _ | x <;> rw [hca] at h
    · cases h
    · rcases hcb : convert_money_to_whole b with _ | y <;> rw [hcb] at h
      · cases h
      · refine ⟨x, y, rfl, rfl, ?_⟩
        replace h : some (if x < y then Ordering.lt
            else if x > y then Ordering.gt else Ordering.eq) = some Ordering.lt := h
        by_contra hlt
        rw [if_neg hlt] at h
        split at h <;> simp at h
  refine ⟨?_, ?_, ?_⟩
  · intro a b x y hx hy
    unfold Money.as_cents at hx hy
    constructor
    · unfold money_lt
      rw [key a b x y hx hy]
      by_cases hxy : x < y
      · simp [hxy]
      · rw [if_neg hxy]
        constructor
        · intro h
          split at h <;> simp at h
        · intro h
          exact absurd h hxy
    · rw [key a b x y hx hy]
      simp
  · intro a b h1 h2
    obtain ⟨x, y, hax, hby, hxy⟩ := dest a b h1
    obtain ⟨y2, x2, hby2, hax2, hyx⟩ := dest b a h2
    rw [hax] at hax2
    rw [hby] at hby2
    injection hax2 with hax2
    injection hby2 with hby2
    omega
  · intro a b c h1 h2
    obtain ⟨x, y, hax, hby, hxy⟩ := dest a b h1
    obtain ⟨y2, z, hby2, hcz, hyz⟩ := dest b c h2
    rw [hby] at hby2
    injection hby2 with hby2
    subst hby2
    unfold money_lt
    rw [key a c x z hax hcz, if_pos (by omega : x < z)]

/-- C8, witness at a concrete pair. -/
theorem C8_witness :
    ((money_lt (mkMoney 4 56 MoneySign.Positive) (mkMoney 12 49 MoneySign.Positive) ↔
      (456 : Int) < 1249) ∧
    money_compare (mkMoney 4 56 MoneySign.Positive) (mkMoney 12 49 MoneySign.Positive) ≠ none) :=
  C8_theorem.1 _ _ 456 1249 (by decide) (by decide)

/-- C9: formatting renders `dollars.cents` with two-digit zero-padded cents,
prepends the symbol when `show_symbol`, and decorates a negative value with a
leading `-` (Minus), wrapping parentheses (Paren), or nothing (Hide); with
the claim's concrete examples. -/
theorem C9_theorem :
    (∀ m : Money, m.sign = MoneySign.Positive ∨ m.options.negative_view = NegativeView.Hide →
      money_fmt m = (if m.options.show_symbol then [m.options.symbol] else []) ++
        (natRepr m.dollars ++ '.' :: fmt_cents m.cents)) ∧
    (∀ m : Money, m.sign = MoneySign.Negative → m.options.negative_view = NegativeView.Minus →
      money_fmt m = '-' :: ((if m.options.show_symbol then [m.options.symbol] else []) ++
        (natRepr m.dollars ++ '.' :: fmt_cents m.cents))) ∧
    (∀ m : Money, m.sign = MoneySign.Negative → m.options.negative_view = NegativeView.Paren →
      money_fmt m = '(' :: (((if m.options.show_symbol then [m.options.symbol] else []) ++
        (natRepr m.dollars ++ '.' :: fmt_cents m.cents)) ++ [')'])) ∧
    (∀ c : Nat, c < 100 → (fmt_cents c).length = 2) ∧
    money_fmt (mkMoney 12 29 MoneySign.Positive) = ['$', '1', '2', '.', '2', '9'] ∧
    money_fmt ⟨12, 29, MoneySign.Negative, ⟨'$', true, NegativeView.Paren⟩⟩ =
      ['(', '$', '1', '2', '.', '2', '9', ')'] ∧
    money_fmt ⟨12, 29, MoneySign.Negative, ⟨'$', true, NegativeView.Hide⟩⟩ =
      ['$', '1', '2', '.', '2', '9'] := by
  refine ⟨?_, ?_, ?_, ?_, by decide, by decide, by decide⟩
  · intro m hm
    cases hs : m.sign with
    | Positive => exact money_fmt_pos m hs
    | Negative =>
        rcases hm with hm | hm
        · rw [hs] at hm; cases hm
        · exact money_fmt_neg_hide m hs hm
  · intro m hs hv
    exact money_fmt_neg_minus m hs hv
  · intro m hs hv
    exact money_fmt_neg_paren m hs hv
  · intro c hc
    interval_cases c <;> decide

/-- C9, witness at a concrete value and cents count. -/
theorem C9_witness :
    money_fmt ⟨0, 5, MoneySign.Negative, ⟨'#', false, NegativeView.Minus⟩⟩ =
      '-' :: ((if (false : Bool) then ['#'] else []) ++ (natRepr 0 ++ '.' :: fmt_cents 5)) ∧
    (fmt_cents 7).length = 2 :=
  ⟨C9_theorem.2.1 _ rfl rfl, C9_theorem.2.2.2.1 7 (by decide)⟩

/-- C6, counterexample: a positive value whose options have negative view
Minus but symbol `'-'` formats as `"-12.29"`, which parses back as a
negative value — the numeric triple is not recovered. -/
theorem C6_counterexample :
    from_str (money_fmt ⟨12, 29, MoneySign.Positive, ⟨'-', true, NegativeView.Minus⟩⟩) =
      PResult.ok ⟨12, 29, MoneySign.Negative, ⟨'$', false, NegativeView.Minus⟩⟩ ∧
    ¬ money_eq ⟨12, 29, MoneySign.Negative, ⟨'$', false, NegativeView.Minus⟩⟩
      ⟨12, 29, MoneySign.Positive, ⟨'-', true, NegativeView.Minus⟩⟩ := by
  decide

/-- C6, amended: formatting then parsing recovers the numeric triple for
every constructible value whose negative view is Minus or Paren (the default
options included), provided that when the value is positive and shows its
symbol, the symbol is neither `'-'` nor `'('` (those leading characters
derail or fail the sign detection). -/
theorem C6_theorem (m : Money) (hd : m.dollars < 2 ^ 64) (hc : m.cents < 100)
    (hz : no_negative_zero m) (hsym : m.options.symbol.isDigit = false)
    (hview : m.options.negative_view = NegativeView.Minus ∨
      m.options.negative_view = NegativeView.Paren)
    (hpos : m.sign = MoneySign.Positive → m.options.show_symbol = true →
      m.options.symbol ≠ '-' ∧ m.options.symbol ≠ '(') :
    ∃ m', from_str (money_fmt m) = PResult.ok m' ∧ money_eq m' m := by
  cases hsgn : m.sign with
  | Positive =>
      have hfs : from_str (money_fmt m) = parse_body MoneySign.Positive false (fmt_core m) := by
        rw [money_fmt_pos m hsgn]
        cases hshow : m.options.show_symbol with
        | true =>
            have hcons : fmt_core m =
                m.options.symbol :: (natRepr m.dollars ++ '.' :: fmt_cents m.cents) := by
              unfold fmt_core
              rw [hshow]
              rfl
            rw [hcons]
            unfold from_str
            rw [sign_detect_default _ (hpos hsgn hshow).1 (hpos hsgn hshow).2]
        | false =>
            obtain ⟨ch, t, hrep, hdig⟩ := natRepr_head m.dollars
            have hcons : fmt_core m = ch :: (t ++ '.' :: fmt_cents m.cents) := by
              unfold fmt_core
              rw [hshow, hrep]
              simp
            rw [hcons]
            unfold from_str
            rw [sign_detect_default _ (isDigit_ne_special hdig).2.1
              (isDigit_ne_special hdig).2.2.1]
      obtain ⟨m', hok, h1, h2, h3⟩ :=
        parse_body_fmt_core m MoneySign.Positive false hd hc hsym
      refine ⟨m', by rw [hfs, hok], h1, h2, ?_⟩
      rw [h3, hsgn]
      split <;> rfl
  | Negative =>
      have hnz : ¬ (m.dollars = 0 ∧ m.cents = 0) := by
        intro hcon
        rw [hz hcon] at hsgn
        cases hsgn
      rcases hview with hv | hv
      · have hfs : from_str (money_fmt m) =
            parse_body MoneySign.Negative false (fmt_core m) := by
          rw [money_fmt_neg_minus m hsgn hv]
          unfold from_str
          rw [sign_detect_minus]
        obtain ⟨m', hok, h1, h2, h3⟩ :=
          parse_body_fmt_core m MoneySign.Negative false hd hc hsym
        refine ⟨m', by rw [hfs, hok], h1, h2, ?_⟩
        rw [h3, if_neg hnz, hsgn]
      · have hfs : from_str (money_fmt m) =
            parse_body MoneySign.Negative true (fmt_core m) := by
          rw [money_fmt_neg_paren m hsgn hv]
          unfold from_str
          rw [sign_detect_paren]
        obtain ⟨m', hok, h1, h2, h3⟩ :=
          parse_body_fmt_core m MoneySign.Negative true hd hc hsym
        refine ⟨m', by rw [hfs, hok], h1, h2, ?_⟩
        rw [h3, if_neg hnz, hsgn]

/-- C6, witness at a concrete negative Paren-view value. -/
theorem C6_witness :
    ∃ m', from_str (money_fmt ⟨12, 29, MoneySign.Negative, ⟨'$', true, NegativeView.Paren⟩⟩) =
      PResult.ok m' ∧
      money_eq m' ⟨12, 29, MoneySign.Negative, ⟨'$', true, NegativeView.Paren⟩⟩ :=
  C6_theorem _ (by decide) (by decide) (by decide) (by decide) (Or.inr rfl) (by decide)

end NMoney
